import Mathlib

/-!
# Verification of the signed-integer modular addition gadget

Shallow embedding of `src/gadgets/src/signed_integer/arithmetic/add.rs`
(`impl Add for Int8/Int16/Int32/Int64/Int128`, generated by `add_int_impl!`).

The gadget is width-parametric: the macro instantiates the same body at
`W ∈ {8, 16, 32, 64, 128}`, differing only in the integer type
(`i8`/…/`i128`) used for `IntegerType::max_value()` and the truncating
`as` cast.  We embed the body once, with the width `W : Nat` as a
parameter.

Machine integers: the gadget does all native arithmetic in `i128`
(`2i128 * i128::from(max_value)`, `*v += i128::from(val)`), which we model
as `Int` with an explicit two's-complement truncation `tcast 128` applied
at every `i128` operation that can overflow (Rust release-mode wrapping
semantics).  The `v as iW` cast is `tcast W`.

External collaborators (`snarkos_models`): modelled at the interface the
spec gives for them (§6):
* `LinearCombination` is the sequence of accumulated terms: `+ (coeff, var)`
  pushes a term, `- (coeff, var)` pushes the negated term;
* `AllocatedBit::alloc` allocates one fresh variable; when the builder
  needs concrete witnesses (`prover = true`) the witness closure's result
  is demanded and its absence is an allocation error, otherwise the
  closure is never forced;
* `enforce` appends one rank-1 constraint `a * b = c`;
* namespacing (`cs.ns`) only affects labels and is dropped.
-/

/-- A variable allocated in the constraint system: its index and its
optional concrete witness (mirrors `AllocatedBit { variable, value }`;
the witness is present exactly when the builder computes witnesses). -/
structure AllocatedBit where
  idx : Nat
  value : Option Bool
deriving DecidableEq, Repr

/-- The tri-state boolean circuit value (mirrors
`Boolean::{Is, Not, Constant}` from `snarkos_models`). -/
inductive Boolean where
  | Is (b : AllocatedBit)
  | Not (b : AllocatedBit)
  | Constant (b : Bool)
deriving DecidableEq, Repr

/-- Whether a `Boolean` is a compile-time constant (`Boolean::Constant`). -/
def Boolean.isConst : Boolean → Bool
  | .Constant _ => true
  | _ => false

/-- A variable occurring in a linear combination: either the distinguished
constant-one input (`CS::one()`) or an allocated variable by index. -/
inductive LCVar where
  | one
  | var (idx : Nat)
deriving DecidableEq, Repr

/-- A linear combination, as the sequence of `(coefficient, variable)`
terms accumulated by `+`/`-` (push-based, as in the constraint-system
capability's `LinearCombination`). -/
abbrev LC (F : Type) := List (F × LCVar)

/-- `LinearCombination::zero()`. -/
def LC.zero (F : Type) : LC F := []

/-- One rank-1 constraint `a * b = c`. -/
structure R1C (F : Type) where
  a : LC F
  b : LC F
  c : LC F
deriving DecidableEq, Repr

/-- The constraint-system builder state: number of allocated variables,
registered constraints, and whether this builder computes witnesses
(prover mode) or only shapes (setup mode). -/
structure CSState (F : Type) where
  numVars : Nat
  constraints : List (R1C F)
  prover : Bool
deriving DecidableEq, Repr

/-- The fixed-width signed-integer gadget: `bits` (LSB first) and the
optional native witness `value` (mirrors the per-width `IntN` structs). -/
structure IntGadget where
  bits : List Boolean
  value : Option Int
deriving DecidableEq, Repr

/-- `<IntW as Int>::IntegerType::max_value()` as an `i128` value,
i.e. `2^(W-1) - 1`. -/
def intMax (W : Nat) : Int := 2 ^ (W - 1) - 1

/-- Rust's truncating cast to the `W`-bit signed type (`v as iW`):
keep the low `W` bits, two's complement.  Also models the wraparound of
`iW` arithmetic itself at `W = 128`. -/
def tcast (W : Nat) (x : Int) : Int :=
  (x + 2 ^ (W - 1)) % 2 ^ W - 2 ^ (W - 1)

/-- Bit `i` of an `i128` value: `(v >> i) & 1 == 1` (arithmetic shift,
i.e. floor division by `2^i`). -/
def intTestBit (v : Int) (i : Nat) : Bool :=
  decide (v / 2 ^ i % 2 = 1)

/-- The linear-combination terms contributed by one operand bit at a given
coefficient: the three arms of the `match *bit` in the operand loops of
`add` (`Is`: `lc + (coeff, bit)`; `Not`: `lc + (coeff, ONE) - (coeff, bit)`;
`Constant true`: `lc + (coeff, ONE)`; `Constant false`: nothing). -/
def bitContrib (F : Type) [CommRing F] (coeff : F) : Boolean → LC F
  | .Is b => [(coeff, LCVar.var b.idx)]
  | .Not b => [(coeff, LCVar.one), (-coeff, LCVar.var b.idx)]
  | .Constant bit => if bit then [(coeff, LCVar.one)] else []

/-- One operand loop of `add`: fold over the operand's bits, pushing each
bit's contribution onto `lc`, doubling `coeff` after every bit
(`coeff.double_in_place()`), and clearing `all_constants` on any
`Is`/`Not` bit.  Returns the extended `lc`, the final `coeff`, and the
`all_constants` flag. -/
def accumBits (F : Type) [CommRing F] :
    List Boolean → LC F → F → Bool → LC F × F × Bool
  | [], lc, coeff, ac => (lc, coeff, ac)
  | bit :: rest, lc, coeff, ac =>
      accumBits F rest (lc ++ bitContrib F coeff bit) (coeff + coeff)
        (ac && bit.isConst)

/-- All bits of a list are compile-time constants. -/
def allConstBits (bs : List Boolean) : Bool := bs.all Boolean.isConst

/-- The two operand loops of `add` in sequence: `self.bits` first, then
`other.bits`, the coefficient accumulator carried over (not reset). -/
def operandAccum (F : Type) [CommRing F] (a b : IntGadget) :
    LC F × F × Bool :=
  let r := accumBits F a.bits (LC.zero F) 1 true
  accumBits F b.bits r.1 r.2.1 r.2.2

/-- The off-circuit witness of the sum: `a.value + b.value` in the `i128`
accumulator, present iff both operand witnesses are present (lines 34 and
42–51 of `add.rs`). -/
def resultValue (a b : IntGadget) : Option Int :=
  match a.value, b.value with
  | some x, some y => some (tcast 128 (x + y))
  | _, _ => none

/-- Modelled from the spec: `IntW::constant`, the per-width constructor
used by the constant shortcut, is not under `src/`; per §4.1 step 6 the
shortcut returns "a gadget built purely as constants … carrying the
truncated value and W constant bits". -/
def IntGadget.constant (W : Nat) (v : Int) : IntGadget :=
  ⟨(List.range W).map fun i => Boolean.Constant (intTestBit v i), some v⟩

/-- Modelled from the spec (§6): `AllocatedBit::alloc` against the
constraint-system capability.  It allocates one fresh boolean-constrained
variable; `w` is the witness closure's result (`None` = the closure's
`.get()` failed with a missing assignment).  A witness-computing builder
demands the witness and surfaces its absence as an allocation error
(`none`); a setup builder never forces the closure. -/
def allocBit (F : Type) (cs : CSState F) (w : Option Bool) :
    Option (AllocatedBit × CSState F) :=
  if cs.prover then
    match w with
    | none => none
    | some v =>
        some (⟨cs.numVars, some v⟩,
          { cs with numVars := cs.numVars + 1 })
  else
    some (⟨cs.numVars, none⟩, { cs with numVars := cs.numVars + 1 })

/-- Outcome of the result-bit allocation loop. -/
inductive LoopResult (F : Type) where
  | ok (bits : List Boolean) (lc : LC F) (cs : CSState F)
  | error (cs : CSState F)
  | outOfFuel
deriving DecidableEq, Repr

/-- The result-bit allocation loop of `add` (lines 120–137):
`while max_value != 0 { alloc bit i; lc -= coeff * bit; max_value >>= 1;
coeff.double_in_place() }`.  `>>` on `i128` is an arithmetic shift, i.e.
`Int.ediv · 2`.  The loop is embedded with explicit fuel; `outOfFuel`
models non-termination. -/
def allocLoop (F : Type) [CommRing F] (maxv : Int) (resVal : Option Int)
    (i : Nat) (coeff : F) (lc : LC F) (bits : List Boolean)
    (cs : CSState F) (fuel : Nat) : LoopResult F :=
  if maxv = 0 then .ok bits lc cs
  else
    match fuel with
    | 0 => .outOfFuel
    | fuel' + 1 =>
        match allocBit F cs (resVal.map fun v => intTestBit v i) with
        | none => .error cs
        | some (b, cs') =>
            allocLoop F (maxv / 2) resVal (i + 1) (coeff + coeff)
              (lc ++ [(-coeff, LCVar.var b.idx)])
              (bits ++ [Boolean.Is b]) cs' fuel'

/-- Outcome of one `add` call: `Ok(gadget)` with the updated builder,
`Err(IntegerError)` with the builder as committed at the failure,
an assertion abort (`panicked`, builder untouched), or non-termination
(`outOfFuel`). -/
inductive AddResult (F : Type) where
  | ok (g : IntGadget) (cs : CSState F)
  | error (cs : CSState F)
  | panicked (cs : CSState F)
  | outOfFuel
deriving DecidableEq, Repr

/-- The body of `fn add` from `add.rs`, width-parametric.
`modulusBits` is `F::Params::MODULUS_BITS`.  Field arithmetic is over any
commutative ring `F`; all native arithmetic is `i128` with wrapping
(`tcast 128`). -/
def add (F : Type) [CommRing F] (W : Nat) (modulusBits : Nat)
    (a b : IntGadget) (cs : CSState F) (fuel : Nat) : AddResult F :=
  if modulusBits < 128 then .panicked cs
  else
    let maxValue := tcast 128 (2 * intMax W)
    let rv := resultValue a b
    let acc := operandAccum F a b
    let modularValue := rv.map (tcast W)
    match acc.2.2, modularValue with
    | true, some mv => .ok (IntGadget.constant W mv) cs
    | _, _ =>
        match allocLoop F maxValue rv 0 1 acc.1 [] cs fuel with
        | .ok rbits lcF cs2 =>
            .ok ⟨rbits.take W, modularValue⟩
              ⟨cs2.numVars,
               cs2.constraints ++ [⟨LC.zero F, LC.zero F, lcF⟩],
               cs2.prover⟩
        | .error cs2 => .error cs2
        | .outOfFuel => .outOfFuel

/-- The optional witness an allocated result bit ends up carrying:
present exactly when the builder computes witnesses and the combined sum
witness is present, in which case it is bit `k` of the sum. -/
def allocVal (prover : Bool) (resVal : Option Int) (k : Nat) : Option Bool :=
  if prover then resVal.map fun v => intTestBit v k else none

/-! ### Binary length: the iteration count of the shift loop -/

/-- Number of iterations of `while max_value != 0 { max_value >>= 1 }`
for a nonnegative counter: the binary length of `n`. -/
def bitLen (n : Nat) : Nat :=
  if n = 0 then 0 else bitLen (n / 2) + 1
termination_by n
decreasing_by exact Nat.div_lt_self (by omega) (by omega)

theorem bitLen_zero : bitLen 0 = 0 := by
  rw [bitLen]
  simp

theorem bitLen_ne_zero {n : Nat} (h : n ≠ 0) :
    bitLen n = bitLen (n / 2) + 1 := by
  rw [bitLen, if_neg h]

theorem bitLen_of_bounds :
    ∀ (k n : Nat), 2 ^ k ≤ n → n < 2 ^ (k + 1) → bitLen n = k + 1 := by
  intro k
  induction k with
  | zero =>
      intro n h1 h2
      have hn : n = 1 := by omega
      subst hn
      rw [bitLen_ne_zero (by omega)]
      norm_num [bitLen_zero]
  | succ k ih =>
      intro n h1 h2
      have hne : n ≠ 0 := by
        have : 0 < 2 ^ (k + 1) := Nat.pos_pow_of_pos _ (by omega)
        omega
      rw [bitLen_ne_zero hne]
      have e1 : 2 ^ (k + 1) = 2 * 2 ^ k := by ring
      have e2 : 2 ^ (k + 2) = 2 * 2 ^ (k + 1) := by ring
      have := ih (n / 2) (by omega) (by omega)
      omega

theorem bitLen_two_pow_sub_two {W : Nat} (h2 : 2 ≤ W) :
    bitLen (2 ^ W - 2) = W := by
  obtain ⟨k, rfl⟩ : ∃ k, W = k + 2 := ⟨W - 2, by omega⟩
  have h1 : (2 : Nat) ≤ 2 ^ (k + 1) := by
    calc (2 : Nat) = 2 ^ 1 := by norm_num
    _ ≤ 2 ^ (k + 1) := Nat.pow_le_pow_right (by omega) (by omega)
  have he : 2 ^ (k + 2) = 2 * 2 ^ (k + 1) := by ring
  have := bitLen_of_bounds (k + 1) (2 ^ (k + 2) - 2) (by omega) (by omega)
  omega

/-! ### Truncating casts -/

/-- Truncating twice truncates to the narrower width: `(x as iV) as iW`
(`W ≤ V`) loses exactly the bits a direct `x as iW` would lose. -/
theorem tcast_tcast {W V : Nat} (hWV : W ≤ V) (x : Int) :
    tcast W (tcast V x) = tcast W x := by
  unfold tcast
  set q : Int := (x + 2 ^ (V - 1)) / 2 ^ V with hq
  have hdvd : (2 : Int) ^ V = 2 ^ W * 2 ^ (V - W) := by
    rw [← pow_add]
    congr 1
    omega
  have h1 : (x + 2 ^ (V - 1)) % 2 ^ V - 2 ^ (V - 1) = x - 2 ^ V * q := by
    rw [Int.emod_def]
    ring
  rw [h1]
  have h2 : x - 2 ^ V * q + 2 ^ (W - 1)
      = x + 2 ^ (W - 1) + 2 ^ W * (-(2 ^ (V - W) * q)) := by
    rw [hdvd]
    ring
  rw [h2, Int.add_mul_emod_self_left]

/-- Truncation is the identity on values already in the signed `W`-bit
range. -/
theorem tcast_eq_self {W : Nat} (hW : 1 ≤ W) {x : Int}
    (h1 : -(2 ^ (W - 1)) ≤ x) (h2 : x < 2 ^ (W - 1)) : tcast W x = x := by
  unfold tcast
  have hpow : (2 : Int) ^ W = 2 ^ (W - 1) * 2 := by
    rw [← pow_succ]
    congr 1
    omega
  rw [Int.emod_eq_of_lt (by omega) (by omega)]
  ring

/-! ### The operand loops -/

/-- Closed form of one operand loop: starting from coefficient `2^k`, the
loop appends, for each bit at offset `j` in the operand, that bit's
contribution at weight `2^(k+j)`; the coefficient accumulator ends at
`2^(k + length)`, and `all_constants` survives iff every bit was a
`Constant`. -/
theorem accumBits_spec (F : Type) [CommRing F] (bits : List Boolean) :
    ∀ (lc : LC F) (k : Nat) (ac : Bool),
    accumBits F bits lc ((2 : F) ^ k) ac =
      (lc ++ ((List.enumFrom k bits).map
          fun p => bitContrib F ((2 : F) ^ p.1) p.2).flatten,
       (2 : F) ^ (k + bits.length), ac && allConstBits bits) := by
  induction bits with
  | nil =>
      intro lc k ac
      simp [accumBits, allConstBits, List.enumFrom]
  | cons bhd btl ih =>
      intro lc k ac
      have hcoeff : (2 : F) ^ k + (2 : F) ^ k = (2 : F) ^ (k + 1) := by
        rw [pow_succ]
        ring
      simp only [accumBits]
      rw [hcoeff, ih]
      have hlen : k + 1 + btl.length = k + (bhd :: btl).length := by
        simp
        omega
      rw [hlen]
      simp [List.enumFrom, allConstBits, Bool.and_assoc, List.append_assoc]

/-- The `all_constants` flag computed across both operand loops is true
iff every bit of both operands is a `Constant`. -/
theorem operandAccum_allconst (F : Type) [CommRing F] (a b : IntGadget) :
    (operandAccum F a b).2.2 = (allConstBits a.bits && allConstBits b.bits) := by
  unfold operandAccum
  have h1 := accumBits_spec F a.bits (LC.zero F) 0 true
  rw [pow_zero] at h1
  rw [h1]
  have h2 := accumBits_spec F b.bits
    ((List.enumFrom 0 a.bits).map
        (fun p => bitContrib F ((2 : F) ^ p.1) p.2)).flatten
    (0 + a.bits.length) (true && allConstBits a.bits)
  simp only [LC.zero, List.nil_append] at h2 ⊢
  rw [h2]
  simp

/-! ### The combined witness -/

theorem resultValue_none_iff (a b : IntGadget) :
    resultValue a b = none ↔ a.value = none ∨ b.value = none := by
  cases ha : a.value <;> cases hb : b.value <;> simp [resultValue, ha, hb]

theorem resultValue_isSome (a b : IntGadget) :
    (resultValue a b).isSome = (a.value.isSome && b.value.isSome) := by
  cases ha : a.value <;> cases hb : b.value <;> simp [resultValue, ha, hb]


/-! ### The result-bit allocation loop -/

theorem allocLoop_exit (F : Type) [CommRing F] {maxv : Int} (hm : maxv = 0)
    (resVal : Option Int) (i : Nat) (coeff : F) (lc : LC F)
    (bits : List Boolean) (cs : CSState F) (fuel : Nat) :
    allocLoop F maxv resVal i coeff lc bits cs fuel = .ok bits lc cs := by
  rw [allocLoop.eq_def, if_pos hm]

theorem allocLoop_no_fuel (F : Type) [CommRing F] {maxv : Int} (hm : maxv ≠ 0)
    (resVal : Option Int) (i : Nat) (coeff : F) (lc : LC F)
    (bits : List Boolean) (cs : CSState F) :
    allocLoop F maxv resVal i coeff lc bits cs 0 = .outOfFuel := by
  rw [allocLoop.eq_def, if_neg hm]

theorem allocLoop_succ (F : Type) [CommRing F] {maxv : Int} (hm : maxv ≠ 0)
    (resVal : Option Int) (i : Nat) (coeff : F) (lc : LC F)
    (bits : List Boolean) (cs : CSState F) (f : Nat) :
    allocLoop F maxv resVal i coeff lc bits cs (f + 1) =
      match allocBit F cs (resVal.map fun v => intTestBit v i) with
      | none => .error cs
      | some (b, cs') =>
          allocLoop F (maxv / 2) resVal (i + 1) (coeff + coeff)
            (lc ++ [(-coeff, LCVar.var b.idx)])
            (bits ++ [Boolean.Is b]) cs' f := by
  rw [allocLoop.eq_def, if_neg hm]

theorem allocBit_prover_missing (F : Type) {cs : CSState F}
    (hcp : cs.prover = true) : allocBit F cs none = none := by
  simp [allocBit, hcp]

theorem allocBit_prover_present (F : Type) {cs : CSState F}
    (hcp : cs.prover = true) (v : Bool) :
    allocBit F cs (some v) =
      some (⟨cs.numVars, some v⟩, { cs with numVars := cs.numVars + 1 }) := by
  simp [allocBit, hcp]

theorem allocBit_setup (F : Type) {cs : CSState F}
    (hcp : cs.prover = false) (w : Option Bool) :
    allocBit F cs w =
      some (⟨cs.numVars, none⟩, { cs with numVars := cs.numVars + 1 }) := by
  simp [allocBit, hcp]

/-- Full inversion of a successful allocation-loop run on a nonnegative
counter `n`: it performs exactly `bitLen n` iterations, allocating the
fresh variables `cs.numVars, cs.numVars+1, …` in order, pushing each as a
new `Is` result bit carrying `allocVal`-witnesses, subtracting
`coeff * 2^j` times each from `lc`, and leaving the constraints and the
mode untouched. -/
theorem allocLoop_ok_inversion (F : Type) [CommRing F] (resVal : Option Int) :
    ∀ (fuel n i : Nat) (coeff : F) (lc : LC F) (bits : List Boolean)
      (cs : CSState F) (rbits : List Boolean) (lcF : LC F) (cs' : CSState F),
    allocLoop F (n : Int) resVal i coeff lc bits cs fuel = .ok rbits lcF cs' →
    rbits = bits ++ (List.range (bitLen n)).map
        (fun j => Boolean.Is ⟨cs.numVars + j, allocVal cs.prover resVal (i + j)⟩) ∧
    lcF = lc ++ (List.range (bitLen n)).map
        (fun j => (-(coeff * (2 : F) ^ j), LCVar.var (cs.numVars + j))) ∧
    cs' = ⟨cs.numVars + bitLen n, cs.constraints, cs.prover⟩ := by
  have hstep : ∀ (f n i : Nat) (coeff : F) (lc : LC F) (bits : List Boolean)
      (cs : CSState F) (rbits : List Boolean) (lcF : LC F) (cs' : CSState F)
      (bv : Option Bool) (hn : n ≠ 0),
      allocLoop F ((n : Int) / 2) resVal (i + 1) (coeff + coeff)
          (lc ++ [(-coeff, LCVar.var cs.numVars)])
          (bits ++ [Boolean.Is ⟨cs.numVars, bv⟩])
          { cs with numVars := cs.numVars + 1 } f = .ok rbits lcF cs' →
      (∀ (h1 : rbits = (bits ++ [Boolean.Is ⟨cs.numVars, bv⟩])
            ++ (List.range (bitLen (n / 2))).map
              (fun j => Boolean.Is ⟨cs.numVars + 1 + j,
                allocVal cs.prover resVal (i + 1 + j)⟩))
        (h2 : lcF = (lc ++ [(-coeff, LCVar.var cs.numVars)])
            ++ (List.range (bitLen (n / 2))).map
              (fun j => (-((coeff + coeff) * (2 : F) ^ j),
                LCVar.var (cs.numVars + 1 + j))))
        (h3 : cs' = ⟨cs.numVars + 1 + bitLen (n / 2), cs.constraints, cs.prover⟩)
        (hbv : bv = allocVal cs.prover resVal i), True) →
      True := fun _ _ _ _ _ _ _ _ _ _ _ _ _ _ => trivial
  clear hstep
  intro fuel
  induction fuel with
  | zero =>
      intro n i coeff lc bits cs rbits lcF cs' h
      by_cases hn : (n : Int) = 0
      · rw [allocLoop_exit F hn] at h
        have hn0 : n = 0 := by exact_mod_cast hn
        subst hn0
        simp only [LoopResult.ok.injEq] at h
        obtain ⟨h1, h2, h3⟩ := h
        subst h1; subst h2; subst h3
        simp [bitLen_zero]
      · rw [allocLoop_no_fuel F hn] at h
        exact absurd h (by simp)
  | succ f ih =>
      intro n i coeff lc bits cs rbits lcF cs' h
      by_cases hn : (n : Int) = 0
      · rw [allocLoop_exit F hn] at h
        have hn0 : n = 0 := by exact_mod_cast hn
        subst hn0
        simp only [LoopResult.ok.injEq] at h
        obtain ⟨h1, h2, h3⟩ := h
        subst h1; subst h2; subst h3
        simp [bitLen_zero]
      · rw [allocLoop_succ F hn] at h
        have hnne : n ≠ 0 := by
          intro h0
          exact hn (by simp [h0])
        have hdiv : (n : Int) / 2 = ((n / 2 : Nat) : Int) := by omega
        have hblen : bitLen n = bitLen (n / 2) + 1 := bitLen_ne_zero hnne
        -- the fresh bit carries `allocVal cs.prover resVal i` in every
        -- successful configuration; reduce `allocBit` per mode
        have hmain : ∀ (bv : Option Bool),
            allocLoop F ((n : Int) / 2) resVal (i + 1) (coeff + coeff)
                (lc ++ [(-coeff, LCVar.var cs.numVars)])
                (bits ++ [Boolean.Is ⟨cs.numVars, bv⟩])
                { cs with numVars := cs.numVars + 1 } f = .ok rbits lcF cs' →
            bv = allocVal cs.prover resVal i →
            rbits = bits ++ (List.range (bitLen n)).map
                (fun j => Boolean.Is ⟨cs.numVars + j,
                  allocVal cs.prover resVal (i + j)⟩) ∧
            lcF = lc ++ (List.range (bitLen n)).map
                (fun j => (-(coeff * (2 : F) ^ j), LCVar.var (cs.numVars + j))) ∧
            cs' = ⟨cs.numVars + bitLen n, cs.constraints, cs.prover⟩ := by
          intro bv hrec hbv
          rw [hdiv] at hrec
          obtain ⟨h1, h2, h3⟩ := ih (n / 2) (i + 1) (coeff + coeff) _ _ _ _ _ _ hrec
          simp only at h1 h2 h3
          refine ⟨?_, ?_, ?_⟩
          · rw [h1, hblen, List.range_succ_eq_map]
            simp only [List.map_cons, List.map_map, List.append_assoc,
              List.singleton_append, List.cons_append, List.nil_append]
            congr 2
            · rw [hbv]
              simp
            · apply List.map_congr_left
              intro j _
              simp only [Function.comp_apply, Nat.succ_eq_add_one]
              have e1 : cs.numVars + 1 + j = cs.numVars + (j + 1) := by omega
              have e2 : i + 1 + j = i + (j + 1) := by omega
              rw [e1, e2]
          · rw [h2, hblen, List.range_succ_eq_map]
            simp only [List.map_cons, List.map_map, List.append_assoc,
              List.singleton_append, List.cons_append, List.nil_append]
            congr 2
            · simp
            · apply List.map_congr_left
              intro j _
              simp only [Function.comp_apply, Nat.succ_eq_add_one]
              have hc : (coeff + coeff) * (2 : F) ^ j = coeff * (2 : F) ^ (j + 1) := by
                rw [pow_succ]
                ring
              have e1 : cs.numVars + 1 + j = cs.numVars + (j + 1) := by omega
              rw [hc, e1]
          · rw [h3, hblen]
            have e : cs.numVars + 1 + bitLen (n / 2) = cs.numVars + (bitLen (n / 2) + 1) := by
              omega
            rw [e]
        by_cases hcp : cs.prover = true
        · cases hrv : resVal with
          | none =>
              rw [hrv] at h
              rw [show Option.map (fun v => intTestBit v i) (none : Option Int)
                  = none from rfl] at h
              rw [allocBit_prover_missing F hcp] at h
              exact absurd h (by simp)
          | some v =>
              rw [hrv] at h
              rw [show Option.map (fun v => intTestBit v i) (some v)
                  = some (intTestBit v i) from rfl] at h
              rw [allocBit_prover_present F hcp] at h
              rw [← hrv]
              refine hmain (allocVal cs.prover resVal i) ?_ rfl
              rw [hrv]
              simpa [allocVal, hcp] using h
        · have hcp' : cs.prover = false := by
            revert hcp
            cases cs.prover <;> simp
          rw [allocBit_setup F hcp'] at h
          refine hmain (allocVal cs.prover resVal i) ?_ rfl
          simpa [allocVal, hcp'] using h

/-- An allocation-loop error can only arise from the witness closure
failing on a witness-demanding builder: the combined sum witness was
absent and the builder was in prover mode.  The failure then happens at
the very first iteration, so the builder state is returned untouched. -/
theorem allocLoop_error_inversion (F : Type) [CommRing F] (resVal : Option Int) :
    ∀ (fuel : Nat) (maxv : Int) (i : Nat) (coeff : F) (lc : LC F)
      (bits : List Boolean) (cs cs' : CSState F),
    allocLoop F maxv resVal i coeff lc bits cs fuel = .error cs' →
    cs.prover = true ∧ resVal = none ∧ cs' = cs := by
  intro fuel
  induction fuel with
  | zero =>
      intro maxv i coeff lc bits cs cs' h
      by_cases hm : maxv = 0
      · rw [allocLoop_exit F hm] at h
        exact absurd h (by simp)
      · rw [allocLoop_no_fuel F hm] at h
        exact absurd h (by simp)
  | succ f ih =>
      intro maxv i coeff lc bits cs cs' h
      by_cases hm : maxv = 0
      · rw [allocLoop_exit F hm] at h
        exact absurd h (by simp)
      · rw [allocLoop_succ F hm] at h
        by_cases hcp : cs.prover = true
        · cases hrv : resVal with
          | none =>
              rw [hrv] at h
              rw [show Option.map (fun v => intTestBit v i) (none : Option Int)
                  = none from rfl] at h
              rw [allocBit_prover_missing F hcp] at h
              simp only [LoopResult.error.injEq] at h
              exact ⟨hcp, rfl, h.symm⟩
          | some v =>
              rw [hrv] at h
              rw [show Option.map (fun v => intTestBit v i) (some v)
                  = some (intTestBit v i) from rfl] at h
              rw [allocBit_prover_present F hcp] at h
              rw [← hrv] at h
              have := ih _ _ _ _ _ _ _ (by exact h)
              rw [hrv] at this
              exact absurd this.2.1 (by simp)
        · have hcp' : cs.prover = false := by
            revert hcp
            cases cs.prover <;> simp
          rw [allocBit_setup F hcp'] at h
          have := ih _ _ _ _ _ _ _ (by exact h)
          rw [hcp'] at this
          exact absurd this.1 (by simp)

/-- On a negative counter (the wrapped `max_value` at width 128) the
loop can never exit successfully: arithmetic right shift keeps a negative
value negative, so the exit test never fires. -/
theorem allocLoop_neg_not_ok (F : Type) [CommRing F] (resVal : Option Int) :
    ∀ (fuel : Nat) (maxv : Int), maxv < 0 →
    ∀ (i : Nat) (coeff : F) (lc : LC F) (bits : List Boolean)
      (cs : CSState F) (rbits : List Boolean) (lcF : LC F) (cs' : CSState F),
    allocLoop F maxv resVal i coeff lc bits cs fuel ≠ .ok rbits lcF cs' := by
  intro fuel
  induction fuel with
  | zero =>
      intro maxv hneg i coeff lc bits cs rbits lcF cs' h
      rw [allocLoop_no_fuel F (by omega)] at h
      exact absurd h (by simp)
  | succ f ih =>
      intro maxv hneg i coeff lc bits cs rbits lcF cs' h
      rw [allocLoop_succ F (by omega)] at h
      have hneg2 : maxv / 2 < 0 := by omega
      by_cases hcp : cs.prover = true
      · cases hrv : resVal with
        | none =>
            rw [hrv] at h
            rw [show Option.map (fun v => intTestBit v i) (none : Option Int)
                = none from rfl] at h
            rw [allocBit_prover_missing F hcp] at h
            exact absurd h (by simp)
        | some v =>
            rw [hrv] at h
            rw [show Option.map (fun v => intTestBit v i) (some v)
                = some (intTestBit v i) from rfl] at h
            rw [allocBit_prover_present F hcp] at h
            rw [← hrv] at h
            exact ih (maxv / 2) hneg2 _ _ _ _ _ _ _ _ (by exact h)
      · have hcp' : cs.prover = false := by
          revert hcp
          cases cs.prover <;> simp
        rw [allocBit_setup F hcp'] at h
        exact ih (maxv / 2) hneg2 _ _ _ _ _ _ _ _ (by exact h)

/-- On a negative counter, whenever the per-bit allocations succeed (setup
mode, or prover mode with the sum witness present), the loop exhausts any
amount of fuel: the embedded image of a non-terminating `while` loop. -/
theorem allocLoop_neg_diverges (F : Type) [CommRing F] (resVal : Option Int) :
    ∀ (fuel : Nat) (maxv : Int), maxv < 0 →
    ∀ (i : Nat) (coeff : F) (lc : LC F) (bits : List Boolean)
      (cs : CSState F), (cs.prover = true → resVal.isSome = true) →
    allocLoop F maxv resVal i coeff lc bits cs fuel = .outOfFuel := by
  intro fuel
  induction fuel with
  | zero =>
      intro maxv hneg i coeff lc bits cs _
      exact allocLoop_no_fuel F (by omega) resVal i coeff lc bits cs
  | succ f ih =>
      intro maxv hneg i coeff lc bits cs hsucc
      rw [allocLoop_succ F (by omega)]
      have hneg2 : maxv / 2 < 0 := by omega
      by_cases hcp : cs.prover = true
      · cases hrv : resVal with
        | none =>
            rw [hrv] at hsucc
            exact absurd (hsucc hcp) (by simp)
        | some v =>
            rw [show Option.map (fun v => intTestBit v i) (some v)
                = some (intTestBit v i) from rfl]
            rw [allocBit_prover_present F hcp]
            rw [← hrv]
            exact ih (maxv / 2) hneg2 _ _ _ _ _ (by simp only [] at hsucc ⊢; exact hsucc)
      · have hcp' : cs.prover = false := by
          revert hcp
          cases cs.prover <;> simp
        rw [allocBit_setup F hcp']
        exact ih (maxv / 2) hneg2 _ _ _ _ _ (by simp [hcp'])

/-- First-iteration failure: a nonzero counter, a witness-demanding
builder and an absent sum witness make the very first allocation fail,
surfacing the allocation error with the builder untouched. -/
theorem allocLoop_first_error (F : Type) [CommRing F] {maxv : Int}
    (hm : maxv ≠ 0) (i : Nat) (coeff : F) (lc : LC F) (bits : List Boolean)
    {cs : CSState F} (hcp : cs.prover = true) (f : Nat) :
    allocLoop F maxv none i coeff lc bits cs (f + 1) = .error cs := by
  rw [allocLoop_succ F hm]
  rw [show Option.map (fun v => intTestBit v i) (none : Option Int)
      = none from rfl]
  rw [allocBit_prover_missing F hcp]

/-! ### Case analysis of `add` -/

/-- Inversion of a successful `add` call: either the constant shortcut
fired (all bits constant, witness known, builder untouched) or the general
path ran the allocation loop to completion, appended exactly the one
`lc = 0` constraint, and truncated the result bits to `W`. -/
theorem add_ok_elim (F : Type) [CommRing F] {W modulusBits : Nat}
    {a b : IntGadget} {cs : CSState F} {fuel : Nat} {g : IntGadget}
    {cs' : CSState F}
    (h : add F W modulusBits a b cs fuel = .ok g cs') :
    ((operandAccum F a b).2.2 = true ∧
      ∃ mv, (resultValue a b).map (tcast W) = some mv ∧
        g = IntGadget.constant W mv ∧ cs' = cs) ∨
    (∃ rbits lcF cs2,
      allocLoop F (tcast 128 (2 * intMax W)) (resultValue a b) 0 1
          (operandAccum F a b).1 [] cs fuel = .ok rbits lcF cs2 ∧
      g = ⟨rbits.take W, (resultValue a b).map (tcast W)⟩ ∧
      cs' = ⟨cs2.numVars,
        cs2.constraints ++ [⟨LC.zero F, LC.zero F, lcF⟩], cs2.prover⟩) := by
  by_cases hm : modulusBits < 128
  · rw [add, if_pos hm] at h
    exact absurd h (by simp)
  · rw [add, if_neg hm] at h
    simp only [] at h
    split at h
    · rename_i mv hacc hmv
      simp only [AddResult.ok.injEq] at h
      exact Or.inl ⟨hacc, mv, hmv, h.1.symm, h.2.symm⟩
    · rename_i hfall
      split at h
      · rename_i rbits lcF cs2 hloop
        simp only [AddResult.ok.injEq] at h
        exact Or.inr ⟨rbits, lcF, cs2, hloop, h.1.symm, h.2.symm⟩
      · exact absurd h (by simp)
      · exact absurd h (by simp)

/-- Inversion of a failing `add` call: the error can only come out of the
allocation loop, propagated unchanged. -/
theorem add_error_elim (F : Type) [CommRing F] {W modulusBits : Nat}
    {a b : IntGadget} {cs : CSState F} {fuel : Nat} {cs' : CSState F}
    (h : add F W modulusBits a b cs fuel = .error cs') :
    allocLoop F (tcast 128 (2 * intMax W)) (resultValue a b) 0 1
      (operandAccum F a b).1 [] cs fuel = .error cs' := by
  by_cases hm : modulusBits < 128
  · rw [add, if_pos hm] at h
    exact absurd h (by simp)
  · rw [add, if_neg hm] at h
    simp only [] at h
    split at h
    · exact absurd h (by simp)
    · split at h
      · exact absurd h (by simp)
      · rename_i cs2 hloop
        simp only [AddResult.error.injEq] at h
        rw [← h]
        exact hloop
      · exact absurd h (by simp)

/-- The constant shortcut of `add`: if the `all_constants` flag survived
both loops and the modular witness is known, `add` returns the constant
gadget immediately with the builder untouched. -/
theorem add_constant_eq (F : Type) [CommRing F] {W modulusBits : Nat}
    {a b : IntGadget} (cs : CSState F) (fuel : Nat) {mv : Int}
    (hm : ¬ modulusBits < 128)
    (hacc : (operandAccum F a b).2.2 = true)
    (hmv : (resultValue a b).map (tcast W) = some mv) :
    add F W modulusBits a b cs fuel = .ok (IntGadget.constant W mv) cs := by
  rw [add, if_neg hm]
  simp only []
  rw [hacc, hmv]

/-- The general path of `add`: when the constant shortcut does not fire,
`add` is the allocation loop followed by the single `enforce` and the
truncation. -/
theorem add_general_eq (F : Type) [CommRing F] {W modulusBits : Nat}
    {a b : IntGadget} (cs : CSState F) (fuel : Nat)
    (hm : ¬ modulusBits < 128)
    (hfall : (operandAccum F a b).2.2 = false ∨
      (resultValue a b).map (tcast W) = none) :
    add F W modulusBits a b cs fuel =
      match allocLoop F (tcast 128 (2 * intMax W)) (resultValue a b) 0 1
          (operandAccum F a b).1 [] cs fuel with
      | .ok rbits lcF cs2 =>
          .ok ⟨rbits.take W, (resultValue a b).map (tcast W)⟩
            ⟨cs2.numVars,
             cs2.constraints ++ [⟨LC.zero F, LC.zero F, lcF⟩], cs2.prover⟩
      | .error cs2 => .error cs2
      | .outOfFuel => .outOfFuel := by
  rw [add, if_neg hm]
  simp only []
  rcases hfall with hacc | hmv
  · rw [hacc]
  · rw [hmv]
    cases haccv : (operandAccum F a b).2.2 <;> rfl

set_option maxRecDepth 4000

/-! ### Width-specific facts -/

theorem maxValue_w8 : tcast 128 (2 * intMax 8) = ((2 ^ 8 - 2 : Nat) : Int) := by
  decide

theorem maxValue_w16 : tcast 128 (2 * intMax 16) = ((2 ^ 16 - 2 : Nat) : Int) := by
  decide

theorem maxValue_w32 : tcast 128 (2 * intMax 32) = ((2 ^ 32 - 2 : Nat) : Int) := by
  decide

theorem maxValue_w64 : tcast 128 (2 * intMax 64) = ((2 ^ 64 - 2 : Nat) : Int) := by
  decide

/-- At width 128 the `2 * i128::MAX` bound overflows `i128` and wraps to
`-2`: the allocation loop's counter starts negative. -/
theorem maxValue_w128 : tcast 128 (2 * intMax 128) = -2 := by
  decide

/-- For widths up to 64 the `i128` bound computation does not overflow,
and the counter is the nonnegative `2^W - 2`, of binary length `W`. -/
theorem maxValue_of_width {W : Nat}
    (hW : W = 8 ∨ W = 16 ∨ W = 32 ∨ W = 64) :
    tcast 128 (2 * intMax W) = ((2 ^ W - 2 : Nat) : Int) ∧
    bitLen (2 ^ W - 2) = W := by
  rcases hW with rfl | rfl | rfl | rfl
  · exact ⟨maxValue_w8, bitLen_two_pow_sub_two (by omega)⟩
  · exact ⟨maxValue_w16, bitLen_two_pow_sub_two (by omega)⟩
  · exact ⟨maxValue_w32, bitLen_two_pow_sub_two (by omega)⟩
  · exact ⟨maxValue_w64, bitLen_two_pow_sub_two (by omega)⟩

/-- Full description of a successful `add` through the general
(non-shortcut) path at the four widths whose bound computation does not
overflow: exactly `W` fresh result-bit variables, value = the truncated
sum witness, and precisely one new constraint `0 * 0 = lc`. -/
theorem add_nonconst_ok (F : Type) [CommRing F] {W modulusBits : Nat}
    {a b : IntGadget} {cs : CSState F} {fuel : Nat} {g : IntGadget}
    {cs' : CSState F}
    (hmax : tcast 128 (2 * intMax W) = ((2 ^ W - 2 : Nat) : Int))
    (hbl : bitLen (2 ^ W - 2) = W)
    (hpath : ¬((operandAccum F a b).2.2 = true ∧
        ((resultValue a b).map (tcast W)).isSome = true))
    (h : add F W modulusBits a b cs fuel = .ok g cs') :
    g.bits = (List.range W).map
        (fun j => Boolean.Is ⟨cs.numVars + j,
          allocVal cs.prover (resultValue a b) j⟩) ∧
    g.value = (resultValue a b).map (tcast W) ∧
    cs'.numVars = cs.numVars + W ∧
    cs'.constraints = cs.constraints ++ [⟨LC.zero F, LC.zero F,
        (operandAccum F a b).1 ++ (List.range W).map
          (fun j => (-((2 : F) ^ j), LCVar.var (cs.numVars + j)))⟩] ∧
    cs'.prover = cs.prover := by
  rcases add_ok_elim F h with ⟨hacc, mv, hmv, _, _⟩ |
    ⟨rbits, lcF, cs2, hloop, hg, hcs⟩
  · exact absurd ⟨hacc, by rw [hmv]; rfl⟩ hpath
  · rw [hmax] at hloop
    obtain ⟨h1, h2, h3⟩ :=
      allocLoop_ok_inversion F (resultValue a b) fuel (2 ^ W - 2) 0 1
        _ _ _ _ _ _ hloop
    rw [hbl] at h1 h2 h3
    simp only [List.nil_append] at h1 h2
    have e1 : (fun j => Boolean.Is
        (⟨cs.numVars + j, allocVal cs.prover (resultValue a b) (0 + j)⟩
          : AllocatedBit)) =
        (fun j => Boolean.Is ⟨cs.numVars + j,
          allocVal cs.prover (resultValue a b) j⟩) := by
      funext j
      rw [Nat.zero_add]
    have e2 : (fun j => ((-((1 : F) * (2 : F) ^ j)),
        LCVar.var (cs.numVars + j))) =
        (fun j => ((-((2 : F) ^ j)), LCVar.var (cs.numVars + j))) := by
      funext j
      rw [one_mul]
    rw [e1] at h1
    rw [e2] at h2
    have hlen : rbits.length = W := by
      rw [h1]
      simp
    refine ⟨?_, ?_, ?_, ?_, ?_⟩
    · rw [hg]
      show rbits.take W = _
      rw [← hlen, List.take_length, h1]
      simp
    · rw [hg]
    · rw [hcs, h3]
    · rw [hcs, h3, h2]
    · rw [hcs, h3]

/-! ### The claims -/

/-- C1: for every width `W ∈ {8,16,32,64,128}` and all operands whose
bits are all compile-time constants and whose witnesses are both present,
`add` returns `Ok` with the constant gadget whose value is
`(x + y) mod 2^W` under two's-complement wraparound, and the builder is
returned untouched: zero new variables, zero new constraints.
(The constant gadget itself is `IntW::constant`, modelled from the spec.) -/
theorem add_constant_operands (F : Type) [CommRing F] (W modulusBits : Nat)
    (a b : IntGadget) (cs : CSState F) (fuel : Nat) (x y : Int)
    (hW : W = 8 ∨ W = 16 ∨ W = 32 ∨ W = 64 ∨ W = 128)
    (hmod : 128 ≤ modulusBits)
    (ha : allConstBits a.bits = true) (hb : allConstBits b.bits = true)
    (hx : a.value = some x) (hy : b.value = some y) :
    add F W modulusBits a b cs fuel =
      .ok (IntGadget.constant W (tcast W (x + y))) cs := by
  have hWle : W ≤ 128 := by rcases hW with rfl | rfl | rfl | rfl | rfl <;> omega
  have hm : ¬ modulusBits < 128 := by omega
  have hacc : (operandAccum F a b).2.2 = true := by
    rw [operandAccum_allconst, ha, hb]
    rfl
  have hrv : resultValue a b = some (tcast 128 (x + y)) := by
    simp [resultValue, hx, hy]
  have hmv : (resultValue a b).map (tcast W) = some (tcast W (x + y)) := by
    rw [hrv]
    show some (tcast W (tcast 128 (x + y))) = _
    rw [tcast_tcast hWle]
  exact add_constant_eq F cs fuel hm hacc hmv

/-- Witness for C1: the spec's two width-8 scenarios, `100 + 27 = 127`
and `100 + 100 = -56` (wraparound), both with the builder unchanged. -/
theorem add_constant_operands_witness :
    add Int 8 253 (IntGadget.constant 8 100) (IntGadget.constant 8 27)
        ⟨0, [], true⟩ 0 = .ok (IntGadget.constant 8 127) ⟨0, [], true⟩ ∧
    add Int 8 253 (IntGadget.constant 8 100) (IntGadget.constant 8 100)
        ⟨0, [], true⟩ 0 = .ok (IntGadget.constant 8 (-56)) ⟨0, [], true⟩ := by
  constructor
  · have h := add_constant_operands Int 8 253 (IntGadget.constant 8 100)
      (IntGadget.constant 8 27) ⟨0, [], true⟩ 0 100 27 (Or.inl rfl)
      (by omega) (by decide) (by decide) rfl rfl
    have e : tcast 8 (100 + 27) = 127 := by decide
    rw [e] at h
    exact h
  · have h := add_constant_operands Int 8 253 (IntGadget.constant 8 100)
      (IntGadget.constant 8 100) ⟨0, [], true⟩ 0 100 100 (Or.inl rfl)
      (by omega) (by decide) (by decide) rfl rfl
    have e : tcast 8 (100 + 100) = -56 := by decide
    rw [e] at h
    exact h

/-- C2: in the linear combination built by `add`'s two operand loops, the
coefficient starts at field one and doubles after every bit, continuously
across both operands: bit `i` of operand `a` contributes at weight `2^i`,
and bit `i` of operand `b` contributes at weight `2^(W+i)` (the
`enumFrom W` offset), where an `Is` bit contributes `coeff·bit`, a `Not`
bit `coeff·1 - coeff·bit`, a true `Constant` `coeff·1`, and a false
`Constant` nothing (see `bitContrib`). -/
theorem add_lc_bit_weights (F : Type) [CommRing F] (W : Nat)
    (a b : IntGadget) (hlen : a.bits.length = W) :
    (operandAccum F a b).1 =
      ((List.enumFrom 0 a.bits).map
          fun p => bitContrib F ((2 : F) ^ p.1) p.2).flatten ++
      ((List.enumFrom W b.bits).map
          fun p => bitContrib F ((2 : F) ^ p.1) p.2).flatten := by
  unfold operandAccum
  have h1 := accumBits_spec F a.bits (LC.zero F) 0 true
  rw [pow_zero] at h1
  simp only [h1]
  have h2 := accumBits_spec F b.bits
    (LC.zero F ++ ((List.enumFrom 0 a.bits).map
        fun p => bitContrib F ((2 : F) ^ p.1) p.2).flatten)
    (0 + a.bits.length) (true && allConstBits a.bits)
  rw [h2, Nat.zero_add, hlen]
  simp [LC.zero]

/-- Witness for C2 at width 8 with bits of every variant. -/
theorem add_lc_bit_weights_witness :
    (operandAccum Int
        ⟨[Boolean.Is ⟨3, none⟩, Boolean.Not ⟨4, none⟩, Boolean.Constant true,
          Boolean.Constant false, Boolean.Is ⟨5, none⟩, Boolean.Constant true,
          Boolean.Not ⟨6, none⟩, Boolean.Constant false], none⟩
        ⟨[Boolean.Constant true, Boolean.Is ⟨7, none⟩], none⟩).1 =
      ((List.enumFrom 0
          [Boolean.Is ⟨3, none⟩, Boolean.Not ⟨4, none⟩, Boolean.Constant true,
           Boolean.Constant false, Boolean.Is ⟨5, none⟩, Boolean.Constant true,
           Boolean.Not ⟨6, none⟩, Boolean.Constant false]).map
          fun p => bitContrib Int ((2 : Int) ^ p.1) p.2).flatten ++
      ((List.enumFrom 8 [Boolean.Constant true, Boolean.Is ⟨7, none⟩]).map
          fun p => bitContrib Int ((2 : Int) ^ p.1) p.2).flatten :=
  add_lc_bit_weights Int 8
    ⟨[Boolean.Is ⟨3, none⟩, Boolean.Not ⟨4, none⟩, Boolean.Constant true,
      Boolean.Constant false, Boolean.Is ⟨5, none⟩, Boolean.Constant true,
      Boolean.Not ⟨6, none⟩, Boolean.Constant false], none⟩
    ⟨[Boolean.Constant true, Boolean.Is ⟨7, none⟩], none⟩ rfl

/-- C7: against a field whose modulus bit-length is below 128, `add`
aborts on its first statement (`assert!(F::Params::MODULUS_BITS >= 128)`)
with the builder untouched — before any variable allocation or constraint
registration, and without returning a recoverable `IntegerError`. -/
theorem add_small_modulus_panics (F : Type) [CommRing F]
    (W modulusBits : Nat) (a b : IntGadget) (cs : CSState F) (fuel : Nat)
    (hmod : modulusBits < 128) :
    add F W modulusBits a b cs fuel = .panicked cs := by
  rw [add, if_pos hmod]

/-- Witness for C7: a 100-bit modulus aborts immediately. -/
theorem add_small_modulus_panics_witness :
    add Int 8 100 (IntGadget.constant 8 1) (IntGadget.constant 8 2)
        ⟨0, [], true⟩ 9 = .panicked ⟨0, [], true⟩ :=
  add_small_modulus_panics Int 8 100 (IntGadget.constant 8 1)
    (IntGadget.constant 8 2) ⟨0, [], true⟩ 9 (by omega)

/-- C6: whenever `add` returns `Ok`, the returned witness is present iff
both operand witnesses are present, and then equals the truncating cast of
the wide sum `x + y` to the `W`-bit signed type; it is absent whenever
either operand witness is absent. -/
theorem add_value_semantics (F : Type) [CommRing F] (W modulusBits : Nat)
    (a b : IntGadget) (cs : CSState F) (fuel : Nat) (g : IntGadget)
    (cs' : CSState F)
    (hW : W = 8 ∨ W = 16 ∨ W = 32 ∨ W = 64 ∨ W = 128)
    (h : add F W modulusBits a b cs fuel = .ok g cs') :
    g.value = (match a.value, b.value with
      | some x, some y => some (tcast W (x + y))
      | _, _ => none) := by
  have hWle : W ≤ 128 := by rcases hW with rfl | rfl | rfl | rfl | rfl <;> omega
  have hgv : g.value = (resultValue a b).map (tcast W) := by
    rcases add_ok_elim F h with ⟨_, mv, hmv, hg, _⟩ |
      ⟨rbits, lcF, cs2, _, hg, _⟩
    · rw [hg, hmv]
      rfl
    · rw [hg]
  rw [hgv]
  cases hx : a.value with
  | none => simp [resultValue, hx]
  | some x =>
      cases hy : b.value with
      | none => simp [resultValue, hx, hy]
      | some y =>
          simp only [resultValue, hx, hy]
          show some (tcast W (tcast 128 (x + y))) = _
          rw [tcast_tcast hWle]

/-- Witness for C6 at width 16: both witnesses present on the constant
path. -/
theorem add_value_semantics_witness :
    (IntGadget.constant 16 (tcast 16 (2 + 3))).value = some (tcast 16 (2 + 3)) :=
  add_value_semantics Int 16 253 (IntGadget.constant 16 2)
    (IntGadget.constant 16 3) ⟨0, [], true⟩ 0
    (IntGadget.constant 16 (tcast 16 (2 + 3))) ⟨0, [], true⟩
    (Or.inr (Or.inl rfl)) (by decide)

/-- C4: for every width in `{8,16,32,64,128}`, whenever `add` returns
`Ok`, the returned gadget's bit sequence has length exactly `W` —
regardless of how many bits were allocated internally (constant path:
`W` constant bits; general path: the `truncate` keeps `W` of the `W`
allocated; width 128 can only return `Ok` through the constant path,
since its allocation loop never exits). -/
theorem add_result_width (F : Type) [CommRing F] (W modulusBits : Nat)
    (a b : IntGadget) (cs : CSState F) (fuel : Nat) (g : IntGadget)
    (cs' : CSState F)
    (hW : W = 8 ∨ W = 16 ∨ W = 32 ∨ W = 64 ∨ W = 128)
    (h : add F W modulusBits a b cs fuel = .ok g cs') :
    g.bits.length = W := by
  rcases add_ok_elim F h with ⟨_, mv, _, hg, _⟩ |
    ⟨rbits, lcF, cs2, hloop, hg, _⟩
  · rw [hg]
    simp [IntGadget.constant]
  · have hfin : ∀ hmax : tcast 128 (2 * intMax W) = ((2 ^ W - 2 : Nat) : Int),
        ∀ hbl : bitLen (2 ^ W - 2) = W, g.bits.length = W := by
      intro hmax hbl
      rw [hmax] at hloop
      obtain ⟨h1, _, _⟩ :=
        allocLoop_ok_inversion F (resultValue a b) fuel (2 ^ W - 2) 0 1
          _ _ _ _ _ _ hloop
      rw [hg]
      show (rbits.take W).length = W
      rw [h1]
      simp [hbl]
    rcases hW with rfl | rfl | rfl | rfl | rfl
    · exact hfin maxValue_w8 (bitLen_two_pow_sub_two (by omega))
    · exact hfin maxValue_w16 (bitLen_two_pow_sub_two (by omega))
    · exact hfin maxValue_w32 (bitLen_two_pow_sub_two (by omega))
    · exact hfin maxValue_w64 (bitLen_two_pow_sub_two (by omega))
    · rw [maxValue_w128] at hloop
      exact absurd hloop
        (allocLoop_neg_not_ok F (resultValue a b) fuel (-2) (by norm_num)
          _ _ _ _ _ _ _ _)

/-- Witness for C4 on the width-16 constant path. -/
theorem add_result_width_witness :
    (IntGadget.constant 16 (tcast 16 (2 + 3))).bits.length = 16 :=
  add_result_width Int 16 253 (IntGadget.constant 16 2)
    (IntGadget.constant 16 3) ⟨0, [], true⟩ 0
    (IntGadget.constant 16 (tcast 16 (2 + 3))) ⟨0, [], true⟩
    (Or.inr (Or.inl rfl)) (by decide)

/-- C5: for operands with at least one `Allocated` or `Negated` bit
(`all_constants = false`), a successful `add` registers exactly one new
constraint: a rank-1 constraint whose two multiplicand linear combinations
are the zero combination and whose target is the accumulated `lc` — the
operand contributions followed by the subtracted result-bit terms
`2^j · var(cs.numVars + j)` — i.e. it asserts `lc == 0`. -/
theorem add_single_zero_constraint (F : Type) [CommRing F]
    (W modulusBits : Nat) (a b : IntGadget) (cs : CSState F) (fuel : Nat)
    (g : IntGadget) (cs' : CSState F)
    (hW : W = 8 ∨ W = 16 ∨ W = 32 ∨ W = 64 ∨ W = 128)
    (hnc : (allConstBits a.bits && allConstBits b.bits) = false)
    (h : add F W modulusBits a b cs fuel = .ok g cs') :
    cs'.constraints = cs.constraints ++ [⟨LC.zero F, LC.zero F,
      (operandAccum F a b).1 ++ (List.range W).map
        (fun j => (-((2 : F) ^ j), LCVar.var (cs.numVars + j)))⟩] := by
  have hpath : ¬((operandAccum F a b).2.2 = true ∧
      ((resultValue a b).map (tcast W)).isSome = true) := by
    rw [operandAccum_allconst, hnc]
    simp
  rcases hW with rfl | rfl | rfl | rfl | rfl
  · exact (add_nonconst_ok F maxValue_w8
      (bitLen_two_pow_sub_two (by omega)) hpath h).2.2.2.1
  · exact (add_nonconst_ok F maxValue_w16
      (bitLen_two_pow_sub_two (by omega)) hpath h).2.2.2.1
  · exact (add_nonconst_ok F maxValue_w32
      (bitLen_two_pow_sub_two (by omega)) hpath h).2.2.2.1
  · exact (add_nonconst_ok F maxValue_w64
      (bitLen_two_pow_sub_two (by omega)) hpath h).2.2.2.1
  · exfalso
    rcases add_ok_elim F h with ⟨hacc, mv, hmv, _, _⟩ |
      ⟨rbits, lcF, cs2, hloop, _, _⟩
    · exact hpath ⟨hacc, by rw [hmv]; rfl⟩
    · rw [maxValue_w128] at hloop
      exact absurd hloop
        (allocLoop_neg_not_ok F (resultValue a b) fuel (-2) (by norm_num)
          _ _ _ _ _ _ _ _)

/-- C10: whenever `add` returns `Err`, no constraint has been registered
on the builder during the call, and its variable counter is unchanged:
the failing allocation is necessarily the first one (the witness closure
fails identically at every index), so the set of variables allocated
before it is empty — and it stays committed, there being no rollback
mechanism. -/
theorem add_error_preserves_builder (F : Type) [CommRing F]
    (W modulusBits : Nat) (a b : IntGadget) (cs : CSState F) (fuel : Nat)
    (cs' : CSState F)
    (h : add F W modulusBits a b cs fuel = .error cs') :
    cs'.numVars = cs.numVars ∧ cs'.constraints = cs.constraints := by
  have hloop := add_error_elim F h
  obtain ⟨_, _, h3⟩ :=
    allocLoop_error_inversion F (resultValue a b) fuel _ 0 1 _ _ _ _ hloop
  rw [h3]
  exact ⟨rfl, rfl⟩

/-- Witness for C10: a prover-mode call with a missing operand witness
errors and leaves the builder exactly as it was. -/
theorem add_error_preserves_builder_witness :
    (⟨5, [], true⟩ : CSState Int).numVars = (⟨5, [], true⟩ : CSState Int).numVars ∧
    (⟨5, [], true⟩ : CSState Int).constraints =
      (⟨5, [], true⟩ : CSState Int).constraints :=
  add_error_preserves_builder Int 8 253
    ⟨List.replicate 8 (Boolean.Constant false), none⟩
    (IntGadget.constant 8 3) ⟨5, [], true⟩ 9 ⟨5, [], true⟩ (by decide)

/-- C9 (implicit): for widths `{8,16,32,64}`, the non-constant path
allocates exactly `W` result bits — `2·max_magnitude(W) = 2^W - 2` has
binary length exactly `W` — and all of them are returned: the final
`truncate` to `W` bits removes nothing, so no extra high-order carry bit
is ever allocated and then discarded. -/
theorem add_nonconstant_allocates_exactly_width (F : Type) [CommRing F]
    (W modulusBits : Nat) (a b : IntGadget) (cs : CSState F) (fuel : Nat)
    (g : IntGadget) (cs' : CSState F)
    (hW : W = 8 ∨ W = 16 ∨ W = 32 ∨ W = 64)
    (hnc : (allConstBits a.bits && allConstBits b.bits &&
      a.value.isSome && b.value.isSome) = false)
    (h : add F W modulusBits a b cs fuel = .ok g cs') :
    cs'.numVars = cs.numVars + W ∧ g.bits.length = W ∧
    g.bits = (List.range W).map
      (fun j => Boolean.Is ⟨cs.numVars + j,
        allocVal cs.prover (resultValue a b) j⟩) := by
  have hpath : ¬((operandAccum F a b).2.2 = true ∧
      ((resultValue a b).map (tcast W)).isSome = true) := by
    rintro ⟨h1, h2⟩
    rw [operandAccum_allconst] at h1
    have h2s : (resultValue a b).isSome = true := by
      cases hres : resultValue a b
      · rw [hres] at h2
        exact absurd h2 (by simp)
      · rfl
    rw [resultValue_isSome] at h2s
    have hall : (allConstBits a.bits && allConstBits b.bits &&
        a.value.isSome && b.value.isSome) = true := by
      simp only [Bool.and_eq_true] at h1 h2s ⊢
      exact ⟨⟨h1, h2s.1⟩, h2s.2⟩
    rw [hall] at hnc
    exact absurd hnc (by simp)
  obtain ⟨hmax, hbl⟩ := maxValue_of_width hW
  obtain ⟨hbits, _, hnv, _, _⟩ := add_nonconst_ok F hmax hbl hpath h
  refine ⟨hnv, ?_, hbits⟩
  rw [hbits]
  simp

/-- C8: for the five widths, with a valid field and at least one unit of
fuel, `add` returns `Err(IntegerError)` if and only if a result-bit
allocation failed because a concrete witness was demanded (prover-mode
builder) while the combined sum witness was absent (some operand witness
missing); no other runtime-checked failure mode exists. -/
theorem add_error_iff (F : Type) [CommRing F] (W modulusBits : Nat)
    (a b : IntGadget) (cs : CSState F) (fuel : Nat)
    (hW : W = 8 ∨ W = 16 ∨ W = 32 ∨ W = 64 ∨ W = 128)
    (hmod : 128 ≤ modulusBits) (hfuel : 1 ≤ fuel) :
    (∃ cs', add F W modulusBits a b cs fuel = .error cs') ↔
      (cs.prover = true ∧ (a.value = none ∨ b.value = none)) := by
  constructor
  · rintro ⟨cs', h⟩
    have hloop := add_error_elim F h
    obtain ⟨hcp, hrv, _⟩ :=
      allocLoop_error_inversion F (resultValue a b) fuel _ 0 1 _ _ _ _ hloop
    exact ⟨hcp, (resultValue_none_iff a b).mp hrv⟩
  · rintro ⟨hcp, hab⟩
    have hm : ¬ modulusBits < 128 := by omega
    have hrv : resultValue a b = none := (resultValue_none_iff a b).mpr hab
    have hmv : (resultValue a b).map (tcast W) = none := by
      rw [hrv]
      rfl
    have hmz : tcast 128 (2 * intMax W) ≠ 0 := by
      rcases hW with rfl | rfl | rfl | rfl | rfl
      · rw [maxValue_w8]; decide
      · rw [maxValue_w16]; decide
      · rw [maxValue_w32]; decide
      · rw [maxValue_w64]; decide
      · rw [maxValue_w128]; decide
    obtain ⟨f, rfl⟩ : ∃ f, fuel = f + 1 := ⟨fuel - 1, by omega⟩
    refine ⟨cs, ?_⟩
    rw [add_general_eq F cs (f + 1) hm (Or.inr hmv), hrv]
    rw [allocLoop_first_error F hmz 0 1 (operandAccum F a b).1 [] hcp f]

/-- Witness for C8: prover mode with the left witness missing at width 8
errors. -/
theorem add_error_iff_witness :
    ∃ cs', add Int 8 253 ⟨List.replicate 8 (Boolean.Constant false), none⟩
      (IntGadget.constant 8 3) ⟨0, [], true⟩ 3 = .error cs' :=
  (add_error_iff Int 8 253 ⟨List.replicate 8 (Boolean.Constant false), none⟩
    (IntGadget.constant 8 3) ⟨0, [], true⟩ 3 (Or.inl rfl) (by omega)
    (by omega)).mpr ⟨rfl, Or.inl rfl⟩

/-- The width-128 divergence inputs: one allocated bit, 127 constant-false
bits, witness 1; and the constant 0. -/
def int128DivergeA : IntGadget :=
  ⟨Boolean.Is ⟨0, some true⟩ :: List.replicate 127 (Boolean.Constant false),
    some 1⟩

def int128DivergeB : IntGadget := IntGadget.constant 128 0

/-- C3 (code bug at width 128): the `i128` computation
`2 * i128::MAX` overflows and wraps to `-2`, so the `while max_value != 0`
loop's counter starts negative; arithmetic right shift keeps it negative
forever, and on the non-constant path the loop never terminates — here,
the fuel-indexed embedding exhausts every fuel bound.  (With overflow
checks enabled the same expression panics instead.)  At widths 8–64 the
claimed bound/termination behaviour does hold (`maxValue_of_width`,
`add_nonconst_ok`). -/
theorem add_int128_bound_overflow_diverges :
    tcast 128 (2 * intMax 128) = -2 ∧
    ∀ fuel : Nat,
      add Int 128 253 int128DivergeA int128DivergeB ⟨1, [], false⟩ fuel =
        .outOfFuel := by
  refine ⟨maxValue_w128, fun fuel => ?_⟩
  have hm : ¬ (253 : Nat) < 128 := by omega
  have hacc : (operandAccum Int int128DivergeA int128DivergeB).2.2 = false := by
    rw [operandAccum_allconst]
    decide
  rw [add_general_eq Int ⟨1, [], false⟩ fuel hm (Or.inl hacc), maxValue_w128]
  rw [allocLoop_neg_diverges Int (resultValue int128DivergeA int128DivergeB)
    fuel (-2) (by norm_num) 0 1
    (operandAccum Int int128DivergeA int128DivergeB).1 [] ⟨1, [], false⟩
    (by simp)]

/-- Width-8 inputs exercising the general path: one allocated operand bit
(variable 0, witness true), the rest constant, against the constant 3. -/
def w8allocA : IntGadget :=
  ⟨Boolean.Is ⟨0, some true⟩ :: List.replicate 7 (Boolean.Constant false),
    some 1⟩

def w8allocB : IntGadget := IntGadget.constant 8 3

/-- The gadget the general path returns on `w8allocA + w8allocB` against
the builder `⟨1, [], false⟩`. -/
def w8allocOut : IntGadget :=
  ⟨[Boolean.Is ⟨1, none⟩, Boolean.Is ⟨2, none⟩, Boolean.Is ⟨3, none⟩,
    Boolean.Is ⟨4, none⟩, Boolean.Is ⟨5, none⟩, Boolean.Is ⟨6, none⟩,
    Boolean.Is ⟨7, none⟩, Boolean.Is ⟨8, none⟩], some 4⟩

/-- The builder state after that call: eight fresh variables and the one
`lc = 0` constraint. -/
def w8allocCS : CSState Int :=
  ⟨9, [⟨[], [], [(1, LCVar.var 0), (256, LCVar.one), (512, LCVar.one),
    (-1, LCVar.var 1), (-2, LCVar.var 2), (-4, LCVar.var 3),
    (-8, LCVar.var 4), (-16, LCVar.var 5), (-32, LCVar.var 6),
    (-64, LCVar.var 7), (-128, LCVar.var 8)]⟩], false⟩

/-- Witness for C5: the concrete width-8 general-path run registers
exactly the single `0 * 0 = lc` constraint. -/
theorem add_single_zero_constraint_witness :
    w8allocCS.constraints =
      (⟨1, [], false⟩ : CSState Int).constraints ++
      [⟨LC.zero Int, LC.zero Int,
        (operandAccum Int w8allocA w8allocB).1 ++ (List.range 8).map
          (fun j => (-((2 : Int) ^ j), LCVar.var (1 + j)))⟩] :=
  add_single_zero_constraint Int 8 253 w8allocA w8allocB ⟨1, [], false⟩ 20
    w8allocOut w8allocCS (Or.inl rfl) (by decide) (by decide)

/-- Witness for C9: the same run allocates exactly 8 variables and
returns all 8 allocated bits. -/
theorem add_nonconstant_allocates_exactly_width_witness :
    w8allocCS.numVars = (⟨1, [], false⟩ : CSState Int).numVars + 8 ∧
    w8allocOut.bits.length = 8 ∧
    w8allocOut.bits = (List.range 8).map
      (fun j => Boolean.Is ⟨(⟨1, [], false⟩ : CSState Int).numVars + j,
        allocVal (⟨1, [], false⟩ : CSState Int).prover
          (resultValue w8allocA w8allocB) j⟩) :=
  add_nonconstant_allocates_exactly_width Int 8 253 w8allocA w8allocB
    ⟨1, [], false⟩ 20 w8allocOut w8allocCS (Or.inl rfl) (by decide)
    (by decide)
